import Mathlib

/-!
# Verification of the forensic-pipeline specification against the code

This development shallowly embeds the observable behaviour of the two
analysis scripts of the repository (`multi-tool-forensic.sh` and
`advanced-yara-tool.sh`) and, for the parts of the specification whose
implementation (the backend orchestrator service) is not part of the
source tree, a model built from the specification text.  The claims of
the specification are then proved or refuted against these definitions.
-/

namespace DevstackForensics

/-! ## Tool invocations and process spawning

Both scripts run their external tools as plain bash commands
(`binwalk … > out 2>&1`, `yara -s rules dump > out 2>&1`, …).  A bash
command wrapped in `timeout T cmd` is killed after `T` seconds; a bare
command runs to completion regardless of its duration.  Neither script
wraps any tool in `timeout`, which the embedding records as
`timeoutSecs = none`. -/

structure ToolInvocation where
  tool : String
  timeoutSecs : Option Nat
deriving Repr, DecidableEq

structure ProcResult where
  killed : Bool
  timedOut : Bool
  ranMs : Nat
deriving Repr, DecidableEq

/-- Wall-clock semantics of spawning one invocation whose underlying
process would take `durationMs` to finish: a `timeout`-wrapped command
is killed once the bound elapses, a bare command is never killed. -/
def spawnProc (inv : ToolInvocation) (durationMs : Nat) : ProcResult :=
  match inv.timeoutSecs with
  | some t => if t * 1000 < durationMs then ⟨true, true, t * 1000⟩ else ⟨false, false, durationMs⟩
  | none => ⟨false, false, durationMs⟩

/-! ## `multi-tool-forensic.sh`

`DUMP_FILE="$1"`; if the argument is empty or not an existing file the
script prints the usage text and exits 1 before any analysis.  Otherwise
it creates `./multi_tool_analysis_$TIMESTAMP`, runs binwalk, foremost,
bulk_extractor and yara when installed (`command -v`), always runs
strings, hexdump and the python3 custom analysis, and finally emits a
JSON report whose `tools_used` is the fixed seven-element list and whose
summary always says `total_tools_used = 7` and
`analysis_complete = true` (lines 342-375 of the script). -/

structure MultiEnv where
  dumpArg : String
  fileExists : String → Bool
  installed : String → Bool
  startTime : Nat
  now : Nat

structure MultiSummary where
  analysisDirectory : String
  totalToolsUsed : Nat
  analysisComplete : Bool
  fileCarvingAttempted : Bool
  patternMatchingCompleted : Bool
  stringExtractionCompleted : Bool
  customAnalysisCompleted : Bool
deriving Repr, DecidableEq

structure MultiReport where
  analysisTimestamp : Nat
  dumpFile : String
  toolsUsed : List String
  summary : MultiSummary
deriving Repr, DecidableEq

structure MultiOutcome where
  exitCode : Nat
  usagePrinted : Bool
  analysisDirCreated : Bool
  invocations : List ToolInvocation
  jsonOutput : Option MultiReport
deriving Repr, DecidableEq

def multiToolsUsed : List String :=
  ["binwalk", "foremost", "bulk_extractor", "yara", "strings", "hexdump", "custom_analysis"]

def multiGuardedTools : List String :=
  ["binwalk", "foremost", "bulk_extractor", "yara"]

def multiAnalysisDir (t : Nat) : String :=
  "./multi_tool_analysis_" ++ toString t

def multiToolForensic (env : MultiEnv) : MultiOutcome :=
  if env.dumpArg = "" ∨ env.fileExists env.dumpArg = false then
    { exitCode := 1, usagePrinted := true, analysisDirCreated := false,
      invocations := [], jsonOutput := none }
  else
    { exitCode := 0, usagePrinted := false, analysisDirCreated := true,
      invocations :=
        (multiGuardedTools.filter env.installed).map (fun t => ⟨t, none⟩) ++
        [⟨"strings", none⟩, ⟨"hexdump", none⟩, ⟨"python3", none⟩],
      jsonOutput := some
        { analysisTimestamp := env.now
          dumpFile := env.dumpArg
          toolsUsed := multiToolsUsed
          summary :=
            { analysisDirectory := multiAnalysisDir env.startTime
              totalToolsUsed := multiToolsUsed.length
              analysisComplete := true
              fileCarvingAttempted := true
              patternMatchingCompleted := true
              stringExtractionCompleted := true
              customAnalysisCompleted := true } } }

/-! ## `advanced-yara-tool.sh` result aggregation

The python block at lines 273-317 reads the yara output file line by
line; a stripped, non-empty line split once on the first space yields a
rule name and match info, which are appended to the per-rule group and
counted; lines without a second field are skipped.  The JSON output
carries the per-rule groups, the per-rule counts, their sum, and boolean
key findings derived from the counts; it also embeds the
timestamp-derived analysis directory and rules-file paths. -/

def isPyWs (c : Char) : Bool :=
  c = ' ' || c = '\t' || c = '\n' || c = '\r'

def pyStrip (s : List Char) : List Char :=
  ((s.dropWhile isPyWs).reverse.dropWhile isPyWs).reverse

/-- Python `split(' ', 1)`: the part before the first space, and, when a
space exists, everything after it. -/
def splitFirstSpace : List Char → List Char × Option (List Char)
  | [] => ([], none)
  | c :: rest =>
    if c = ' ' then ([], some rest)
    else
      let p := splitFirstSpace rest
      (c :: p.1, p.2)

/-- One line of the yara output file, parsed as the script's python
does: strip, skip empty, split once on the first space, require two
fields. -/
def parseMatchLine (s : String) : Option (String × String) :=
  match splitFirstSpace (pyStrip s.data) with
  | (_, none) => none
  | (r, some info) => some (String.mk r, String.mk info)

/-- Append a match to the insertion-ordered per-rule groups, as the
python dict update does. -/
def insertMatch (acc : List (String × List String)) (r info : String) :
    List (String × List String) :=
  match acc with
  | [] => [(r, [info])]
  | (k, v) :: rest =>
    if k = r then (k, v ++ [info]) :: rest
    else (k, v) :: insertMatch rest r info

def buildStep (acc : List (String × List String)) (line : String) :
    List (String × List String) :=
  match parseMatchLine line with
  | none => acc
  | some (r, info) => insertMatch acc r info

def buildMatches (lines : List String) : List (String × List String) :=
  lines.foldl buildStep []

/-- Length of the group stored under key `q` (0 when absent): the
`rule_counts` entry of the python block, which always equals the length
of the corresponding `matches` list. -/
def groupLen (acc : List (String × List String)) (q : String) : Nat :=
  match acc.find? (fun g => g.1 == q) with
  | some g => g.2.length
  | none => 0

/-- `rule_counts.get(r, 0)` of the python block. -/
def ruleCountOf (lines : List String) (r : String) : Nat :=
  groupLen (buildMatches lines) r

structure KeyFindings where
  credentialsFound : Bool
  systemConfigFound : Bool
  processMapsFound : Bool
  networkInfoFound : Bool
  sshKeysFound : Bool
  potentialMalware : Bool
deriving Repr, DecidableEq

structure YaraAggregate where
  analysisTimestamp : Nat
  dumpFile : String
  analysisDirectory : String
  yaraRulesFile : String
  totalMatches : Nat
  ruleSummary : List (String × Nat)
  detailedMatches : List (String × List String)
  keyFindings : KeyFindings
deriving Repr, DecidableEq

def yaraAnalysisDir (t : Nat) : String :=
  "./advanced_yara_analysis_" ++ toString t

def aggregateYara (lines : List String) (dumpFile : String) (startTime now : Nat) :
    YaraAggregate :=
  let groups := buildMatches lines
  { analysisTimestamp := now
    dumpFile := dumpFile
    analysisDirectory := yaraAnalysisDir startTime
    yaraRulesFile := yaraAnalysisDir startTime ++ "/advanced_forensic.yar"
    totalMatches := (groups.map (fun g => g.2.length)).sum
    ruleSummary := groups.map (fun g => (g.1, g.2.length))
    detailedMatches := groups
    keyFindings :=
      { credentialsFound := decide (0 < ruleCountOf lines "CirrOS_Credentials")
        systemConfigFound := decide (0 < ruleCountOf lines "System_Configuration")
        processMapsFound := decide (0 < ruleCountOf lines "Process_Memory_Maps")
        networkInfoFound := decide (0 < ruleCountOf lines "Network_Information")
        sshKeysFound := decide (0 < ruleCountOf lines "SSH_Keys_And_Auth")
        potentialMalware := decide (0 < ruleCountOf lines "Potential_Malware") } }

/-- `{ a with analysisTimestamp := 0 }`: the document with the
`generatedAt`-equivalent field erased, to compare runs taken at
different wall-clock times. -/
def eraseTimestamp (a : YaraAggregate) : YaraAggregate :=
  { a with analysisTimestamp := 0 }

structure YaraEnv where
  dumpArg : String
  fileExists : String → Bool
  yaraOutputLines : List String
  startTime : Nat
  now : Nat

structure YaraScriptOutcome where
  exitCode : Nat
  usagePrinted : Bool
  analysisDirCreated : Bool
  invocations : List ToolInvocation
  jsonOutput : Option YaraAggregate
deriving Repr, DecidableEq

/-- `advanced-yara-tool.sh`: same argument guard as the multi-tool
script; on valid input it creates the analysis directory, runs yara
(bare, unguarded, no timeout) and emits the aggregated JSON. -/
def advancedYaraTool (env : YaraEnv) : YaraScriptOutcome :=
  if env.dumpArg = "" ∨ env.fileExists env.dumpArg = false then
    { exitCode := 1, usagePrinted := true, analysisDirCreated := false,
      invocations := [], jsonOutput := none }
  else
    { exitCode := 0, usagePrinted := false, analysisDirCreated := true,
      invocations := [⟨"yara", none⟩],
      jsonOutput := some (aggregateYara env.yaraOutputLines env.dumpArg env.startTime env.now) }

/-! ### Concrete environments used as witnesses -/

def envAllTools : MultiEnv :=
  { dumpArg := "dump.raw", fileExists := fun _ => true, installed := fun _ => true,
    startTime := 0, now := 0 }

def envNoTools : MultiEnv :=
  { dumpArg := "dump.raw", fileExists := fun _ => true, installed := fun _ => false,
    startTime := 0, now := 0 }

def envNoArg : MultiEnv :=
  { dumpArg := "", fileExists := fun _ => false, installed := fun _ => false,
    startTime := 0, now := 0 }

def yenvSample : YaraEnv :=
  { dumpArg := "dump.raw", fileExists := fun _ => true,
    yaraOutputLines := ["CirrOS_Credentials dump.raw"], startTime := 0, now := 0 }

def yenvNoArg : YaraEnv :=
  { dumpArg := "", fileExists := fun _ => false, yaraOutputLines := [],
    startTime := 0, now := 0 }

/-! ## The pipeline orchestrator and job state machine

The backend service implementing the orchestrator is not part of the
source tree (the frontend only polls it over `/api/integrated-forensic`),
so the state machine and orchestrator below are modelled from the
specification. -/

/-- Modelled from the spec: the Job State Machine states of section 4.3
(the backend service holding them is not in the source tree). -/
inductive JobPhase
  | pending
  | acquiring
  | analyzing
  | reporting
  | completed
  | failed
  | cancelled
deriving Repr, DecidableEq

def JobPhase.isActive : JobPhase → Bool
  | .acquiring | .analyzing | .reporting => true
  | _ => false

def JobPhase.isTerminal : JobPhase → Bool
  | .completed | .failed | .cancelled => true
  | _ => false

/-- A phase that has ever held a worker slot: everything except
`pending` and `cancelled` (a job cancelled while pending never occupied
a slot; one cancelled later did, but keeps no record of it). -/
def JobPhase.started : JobPhase → Bool
  | .acquiring | .analyzing | .reporting | .completed | .failed => true
  | _ => false

structure ToolSummary where
  run : Nat
  succeeded : Nat
  failed : Nat
deriving Repr, DecidableEq

/-- Modelled from the spec: the canonical ResultDocument of section 3. -/
structure ResultDocument where
  subjectRef : String
  findings : List (String × List String)
  toolSummary : ToolSummary
  generatedAt : Nat
deriving Repr, DecidableEq

/-- Modelled from the spec: one Job of the orchestrator's job table. -/
structure SpecJob where
  id : Nat
  phase : JobPhase
  progress : Nat
  result : Option ResultDocument
  errorDetail : Option String
deriving Repr, DecidableEq

/-- Modelled from the spec: the orchestrator's shared mutable state:
the job table (in submission order), the FIFO queue of pending job ids,
and the id counter. -/
structure OrchState where
  jobs : List SpecJob
  queue : List Nat
  nextId : Nat
deriving Repr, DecidableEq

def freshJob (id : Nat) : SpecJob :=
  { id := id, phase := .pending, progress := 0, result := none, errorDetail := none }

def startJob (j : SpecJob) : SpecJob :=
  { j with phase := .acquiring }

def promote (jobs : List SpecJob) (id : Nat) : List SpecJob :=
  jobs.map (fun j => if j.id = id then startJob j else j)

def activeCount (jobs : List SpecJob) : Nat :=
  jobs.countP (fun j => j.phase.isActive)

/-- Modelled from the spec: the worker pool dequeues pending jobs in
FIFO order while a slot is free; a dequeued job enters `Acquiring`.
`fuel` is the queue length at the call site. -/
def fillSlots (N : Nat) : Nat → OrchState → OrchState
  | 0, s => s
  | fuel + 1, s =>
    match s.queue with
    | [] => s
    | id :: rest =>
      if activeCount s.jobs < N then
        fillSlots N fuel { jobs := promote s.jobs id, queue := rest, nextId := s.nextId }
      else s

/-- Modelled from the spec: the state-machine advance of one job when
its current phase's runner finishes.  Success advances
`Acquiring → Analyzing (25%) → Reporting (75%) → Completed (100%,
result set)`; failure of a phase moves the job to `Failed` with the
error detail set. -/
def advanceJob (ok : Bool) (doc : ResultDocument) (j : SpecJob) : SpecJob :=
  match j.phase, ok with
  | .acquiring, true => { j with phase := .analyzing, progress := 25 }
  | .analyzing, true => { j with phase := .reporting, progress := 75 }
  | .reporting, true => { j with phase := .completed, progress := 100, result := some doc }
  | .acquiring, false =>
    { j with phase := .failed, errorDetail := some "phase failure policy violated" }
  | .analyzing, false =>
    { j with phase := .failed, errorDetail := some "phase failure policy violated" }
  | .reporting, false =>
    { j with phase := .failed, errorDetail := some "phase failure policy violated" }
  | _, _ => j

/-- Modelled from the spec: cancellation is a no-op on terminal jobs and
moves any other job to `Cancelled`. -/
def cancelJob (j : SpecJob) : SpecJob :=
  match j.phase with
  | .completed | .failed | .cancelled => j
  | _ => { j with phase := .cancelled }

/-- Modelled from the spec: the external events the orchestrator reacts
to: a submission, the completion (ok or not) of the running phase of a
job, and a cancellation request. -/
inductive OrchEvent
  | submit
  | phaseDone (id : Nat) (ok : Bool) (doc : ResultDocument)
  | cancel (id : Nat)
deriving Repr, DecidableEq

/-- Modelled from the spec: the orchestrator's reaction to one event;
after every event free worker slots are refilled from the FIFO queue. -/
def applyEvent (N : Nat) (s : OrchState) : OrchEvent → OrchState
  | .submit =>
    let s' : OrchState :=
      { jobs := s.jobs ++ [freshJob s.nextId], queue := s.queue ++ [s.nextId],
        nextId := s.nextId + 1 }
    fillSlots N s'.queue.length s'
  | .phaseDone id ok doc =>
    let s' : OrchState :=
      { s with jobs := s.jobs.map (fun j => if j.id = id then advanceJob ok doc j else j) }
    fillSlots N s'.queue.length s'
  | .cancel id =>
    let s' : OrchState :=
      { s with jobs := s.jobs.map (fun j => if j.id = id then cancelJob j else j),
               queue := s.queue.filter (fun q => q != id) }
    fillSlots N s'.queue.length s'

def initState : OrchState :=
  { jobs := [], queue := [], nextId := 0 }

def runEvents (N : Nat) (es : List OrchEvent) : OrchState :=
  es.foldl (applyEvent N) initState

def runFrom (N : Nat) (s : OrchState) (es : List OrchEvent) : OrchState :=
  es.foldl (applyEvent N) s

def lookupJob (s : OrchState) (id : Nat) : Option SpecJob :=
  s.jobs.find? (fun j => j.id == id)

inductive OrchError
  | notFound
  | notReady
deriving Repr, DecidableEq

/-- Modelled from the spec: `GetStatus(jobId)`: `NotFound` for unknown
ids, else the job. -/
def getStatus (s : OrchState) (id : Nat) : Except OrchError SpecJob :=
  match lookupJob s id with
  | none => .error .notFound
  | some j => .ok j

/-- Modelled from the spec: `GetResult(jobId)`: `NotFound` for unknown
ids, `NotReady` before `Completed`, else the result document. -/
def getResult (s : OrchState) (id : Nat) : Except OrchError ResultDocument :=
  match lookupJob s id with
  | none => .error .notFound
  | some j =>
    if j.phase = .completed then
      match j.result with
      | some d => .ok d
      | none => .error .notReady
    else .error .notReady

/-- The progress milestone a phase pins the job to (`Failed` and
`Cancelled` keep whatever progress the job had). -/
def phaseProgress : JobPhase → Option Nat
  | .pending => some 0
  | .acquiring => some 0
  | .analyzing => some 25
  | .reporting => some 75
  | .completed => some 100
  | .failed => none
  | .cancelled => none

/-- Well-formedness of one job record. -/
structure JobWf (j : SpecJob) : Prop where
  le100 : j.progress ≤ 100
  phaseProg : ∀ p, phaseProgress j.phase = some p → j.progress = p
  completedResult : j.phase = .completed → j.result.isSome = true
  errFailed : j.errorDetail.isSome = true → j.phase = .failed
  resultNone : j.phase ≠ .completed → j.result = none

/-- The orchestrator invariant: job records are well formed, the worker
pool bound holds, the queue mirrors exactly the pending jobs in
submission (= id) order, ids are unique and below the counter, and
every job that ever held a slot was submitted before every job still
pending. -/
structure Inv (N : Nat) (s : OrchState) : Prop where
  wf : ∀ j ∈ s.jobs, JobWf j
  bound : activeCount s.jobs ≤ N
  pendingQueue : ∀ j ∈ s.jobs, (j.phase = .pending ↔ j.id ∈ s.queue)
  queueJobs : ∀ q ∈ s.queue, ∃ j ∈ s.jobs, j.id = q
  idsNodup : (s.jobs.map SpecJob.id).Nodup
  idsLt : ∀ j ∈ s.jobs, j.id < s.nextId
  queueSorted : s.queue.Pairwise (· < ·)
  fifo : ∀ j ∈ s.jobs, j.phase.started = true →
    ∀ k ∈ s.jobs, k.phase = .pending → j.id < k.id

/-- A sample result document for concrete runs. -/
def sampleDoc : ResultDocument :=
  { subjectRef := "instance-1", findings := [], toolSummary := ⟨0, 0, 0⟩, generatedAt := 0 }

/-! ## Lemmas about the yara aggregation -/

theorem insertMatch_sum_lengths (acc : List (String × List String)) (r info : String) :
    ((insertMatch acc r info).map (fun g => g.2.length)).sum
      = (acc.map (fun g => g.2.length)).sum + 1 := by
  induction acc with
  | nil => simp [insertMatch]
  | cons kv rest ih =>
    obtain ⟨k, v⟩ := kv
    by_cases h : k = r
    · simp [insertMatch, h]
      omega
    · simp [insertMatch, h, ih]
      omega

theorem buildMatches_sum_lengths (lines : List String) :
    ((buildMatches lines).map (fun g => g.2.length)).sum
      = (lines.filterMap parseMatchLine).length := by
  suffices h : ∀ acc : List (String × List String),
      (((lines.foldl buildStep acc)).map (fun g => g.2.length)).sum
        = (acc.map (fun g => g.2.length)).sum + (lines.filterMap parseMatchLine).length by
    simpa [buildMatches] using h []
  induction lines with
  | nil => intro acc; simp
  | cons l ls ih =>
    intro acc
    simp only [List.foldl_cons, List.filterMap_cons]
    cases hp : parseMatchLine l with
    | none => simp [buildStep, hp, ih]
    | some p =>
      obtain ⟨r, info⟩ := p
      simp [buildStep, hp, ih, insertMatch_sum_lengths]
      omega

theorem groupLen_nil (q : String) : groupLen [] q = 0 := rfl

theorem groupLen_cons (k : String) (v : List String) (rest : List (String × List String))
    (q : String) :
    groupLen ((k, v) :: rest) q = if k = q then v.length else groupLen rest q := by
  by_cases h : k = q
  · have hb : (k == q) = true := beq_iff_eq.mpr h
    simp [groupLen, List.find?, hb, h]
  · have hb : (k == q) = false := beq_eq_false_iff_ne.mpr h
    simp [groupLen, List.find?, hb, h]

theorem groupLen_insertMatch (acc : List (String × List String)) (r info q : String) :
    groupLen (insertMatch acc r info) q
      = groupLen acc q + (if r = q then 1 else 0) := by
  induction acc with
  | nil =>
    show groupLen [(r, [info])] q = groupLen [] q + (if r = q then 1 else 0)
    rw [groupLen_cons]
    by_cases h : r = q <;> simp [h, groupLen_nil]
  | cons kv rest ih =>
    obtain ⟨k, v⟩ := kv
    by_cases hk : k = r
    · have he : insertMatch ((k, v) :: rest) r info = (k, v ++ [info]) :: rest := by
        simp [insertMatch, hk]
      rw [he, groupLen_cons, groupLen_cons]
      by_cases hq : k = q
      · have hr : r = q := hk.symm.trans hq
        rw [if_pos hq, if_pos hq, if_pos hr]
        simp
      · have hr : ¬ r = q := fun h => hq (hk.trans h)
        rw [if_neg hq, if_neg hq, if_neg hr]
        omega
    · have he : insertMatch ((k, v) :: rest) r info = (k, v) :: insertMatch rest r info := by
        simp [insertMatch, hk]
      rw [he, groupLen_cons, groupLen_cons]
      by_cases hq : k = q
      · have hr : ¬ r = q := fun h => hk (hq.trans h.symm)
        rw [if_pos hq, if_pos hq, if_neg hr]
        omega
      · rw [if_neg hq, if_neg hq, ih]

theorem buildMatches_groupLen (lines : List String) (q : String) :
    groupLen (buildMatches lines) q
      = (lines.filterMap parseMatchLine).countP (fun p => p.1 == q) := by
  suffices h : ∀ acc : List (String × List String),
      groupLen (lines.foldl buildStep acc) q
        = groupLen acc q + (lines.filterMap parseMatchLine).countP (fun p => p.1 == q) by
    simpa [buildMatches, groupLen_nil] using h []
  induction lines with
  | nil => intro acc; simp
  | cons l ls ih =>
    intro acc
    simp only [List.foldl_cons, List.filterMap_cons]
    cases hp : parseMatchLine l with
    | none => simp [buildStep, hp, ih]
    | some p =>
      obtain ⟨r, info⟩ := p
      by_cases hq : r = q
      · have hb : (r == q) = true := beq_iff_eq.mpr hq
        simp [buildStep, hp, ih, groupLen_insertMatch, hq, hb, List.countP_cons]
        omega
      · have hb : (r == q) = false := beq_eq_false_iff_ne.mpr hq
        simp [buildStep, hp, ih, groupLen_insertMatch, hq, hb, List.countP_cons]

theorem insertMatch_mem_self (acc : List (String × List String)) (r info : String) :
    ∃ g, (r, g) ∈ insertMatch acc r info ∧ info ∈ g := by
  induction acc with
  | nil => exact ⟨[info], by simp [insertMatch]⟩
  | cons kv rest ih =>
    obtain ⟨k, v⟩ := kv
    by_cases h : k = r
    · subst h
      exact ⟨v ++ [info], by simp [insertMatch]⟩
    · obtain ⟨g, hg, hi⟩ := ih
      exact ⟨g, by simp [insertMatch, h]; right; exact hg, hi⟩

theorem insertMatch_mem_preserved (acc : List (String × List String)) (r info q : String)
    (g : List String) (hmem : (q, g) ∈ acc) (x : String) (hx : x ∈ g) :
    ∃ g', (q, g') ∈ insertMatch acc r info ∧ x ∈ g' := by
  induction acc with
  | nil => cases hmem
  | cons kv rest ih =>
    obtain ⟨k, v⟩ := kv
    rcases List.mem_cons.mp hmem with heq | hrest
    · injection heq with hk hv
      subst hk; subst hv
      by_cases h : q = r
      · subst h
        exact ⟨g ++ [info], by simp [insertMatch], List.mem_append_left _ hx⟩
      · exact ⟨g, by simp [insertMatch, h], hx⟩
    · by_cases h : k = r
      · subst h
        exact ⟨g, by simp [insertMatch]; right; exact hrest, hx⟩
      · obtain ⟨g', hg', hx'⟩ := ih hrest
        exact ⟨g', by simp [insertMatch, h]; right; exact hg', hx'⟩

theorem buildMatches_mem (lines : List String) (r info : String)
    (h : (r, info) ∈ lines.filterMap parseMatchLine) :
    ∃ g, (r, g) ∈ buildMatches lines ∧ info ∈ g := by
  suffices hgen : ∀ (ls : List String) (acc : List (String × List String)),
      ((∃ g, (r, g) ∈ acc ∧ info ∈ g) ∨ (r, info) ∈ ls.filterMap parseMatchLine) →
      ∃ g, (r, g) ∈ ls.foldl buildStep acc ∧ info ∈ g by
    exact hgen lines [] (Or.inr h)
  intro ls
  induction ls with
  | nil =>
    rintro acc (⟨g, hg, hi⟩ | hbad)
    · exact ⟨g, hg, hi⟩
    · simp at hbad
  | cons l ls ih =>
    rintro acc (⟨g, hg, hi⟩ | hnew)
    · refine ih (buildStep acc l) (Or.inl ?_)
      cases hp : parseMatchLine l with
      | none => exact ⟨g, by simp [buildStep, hp]; exact hg, hi⟩
      | some p =>
        obtain ⟨r', i'⟩ := p
        simpa [buildStep, hp] using insertMatch_mem_preserved acc r' i' r g hg info hi
    · rw [List.filterMap_cons] at hnew
      cases hp : parseMatchLine l with
      | none =>
        rw [hp] at hnew
        exact ih (buildStep acc l) (Or.inr hnew)
      | some p =>
        obtain ⟨r', i'⟩ := p
        rw [hp] at hnew
        rcases List.mem_cons.mp hnew with heq | htail
        · injection heq with hr hi
          subst hr; subst hi
          refine ih (buildStep acc l) (Or.inl ?_)
          simpa [buildStep, hp] using insertMatch_mem_self acc r info
        · exact ih (buildStep acc l) (Or.inr htail)

/-! ## Claim C10 -/

/-- C10: if the dump-file argument of either analysis script is missing
or does not name an existing file, the script prints the usage message
and exits with status 1 without running any tool, creating the analysis
directory, or emitting any JSON output. -/
theorem missing_dump_argument_rejected (menv : MultiEnv) (yenv : YaraEnv)
    (hm : menv.dumpArg = "" ∨ menv.fileExists menv.dumpArg = false)
    (hy : yenv.dumpArg = "" ∨ yenv.fileExists yenv.dumpArg = false) :
    multiToolForensic menv =
      { exitCode := 1, usagePrinted := true, analysisDirCreated := false,
        invocations := [], jsonOutput := none } ∧
    advancedYaraTool yenv =
      { exitCode := 1, usagePrinted := true, analysisDirCreated := false,
        invocations := [], jsonOutput := none } := by
  constructor
  · unfold multiToolForensic
    rw [if_pos hm]
  · unfold advancedYaraTool
    rw [if_pos hy]

/-- Witness for C10 at the concrete empty-argument environments. -/
theorem missing_dump_argument_rejected_witness :
    (multiToolForensic envNoArg).exitCode = 1 ∧
    (multiToolForensic envNoArg).jsonOutput = none ∧
    (advancedYaraTool yenvNoArg).exitCode = 1 ∧
    (advancedYaraTool yenvNoArg).analysisDirCreated = false := by
  have h := missing_dump_argument_rejected envNoArg yenvNoArg (Or.inl rfl) (Or.inl rfl)
  exact ⟨by rw [h.1], by rw [h.1], by rw [h.2], by rw [h.2]⟩

/-! ## Claim C2 -/

/-- C2 counterexample: in a run of `multi-tool-forensic.sh` with every
tool installed, the yara invocation (like every other one) is spawned
with no wall-clock timeout at all, and a process running for an hour is
not killed — refuting the claim that every Tool Adapter run is spawned
with a hard wall-clock timeout. -/
theorem tool_spawn_timeout_counterexample :
    ∃ inv ∈ (multiToolForensic envAllTools).invocations,
      inv.tool = "yara" ∧ inv.timeoutSecs = none ∧
      (spawnProc inv 3600000).killed = false ∧
      (spawnProc inv 3600000).timedOut = false := by decide

/-- C2 (amended): every external process either script spawns is run
without any wall-clock timeout; no run is ever killed or recorded as
timed out, however long the process takes. -/
theorem tool_spawn_no_timeout (menv : MultiEnv) (yenv : YaraEnv) (inv : ToolInvocation)
    (h : inv ∈ (multiToolForensic menv).invocations ∨
         inv ∈ (advancedYaraTool yenv).invocations)
    (durationMs : Nat) :
    inv.timeoutSecs = none ∧ (spawnProc inv durationMs).killed = false ∧
    (spawnProc inv durationMs).timedOut = false := by
  have hnone : inv.timeoutSecs = none := by
    rcases h with h | h
    · unfold multiToolForensic at h
      split at h
      · simp at h
      · simp only [List.mem_append, List.mem_map, List.mem_cons] at h
        rcases h with ⟨t, _, rfl⟩ | rfl | rfl | rfl | hbad
        · rfl
        · rfl
        · rfl
        · rfl
        · simp at hbad
    · unfold advancedYaraTool at h
      split at h
      · simp at h
      · simp only [List.mem_cons, List.not_mem_nil, or_false] at h
        rw [h]
  exact ⟨hnone, by simp [spawnProc, hnone], by simp [spawnProc, hnone]⟩

/-- Witness for the amended C2 at the concrete yara invocation. -/
theorem tool_spawn_no_timeout_witness :
    (spawnProc ⟨"yara", (none : Option Nat)⟩ 3600000).killed = false :=
  (tool_spawn_no_timeout envAllTools yenvSample ⟨"yara", none⟩
    (Or.inl (by decide)) 3600000).2.1

/-! ## Claim C3 -/

/-- C3 counterexample: a run of `multi-tool-forensic.sh` in which none
of the guarded tools is installed executes exactly 3 tools, yet the
emitted summary still reports `total_tools_used = 7` and
`analysis_complete = true`, and is identical to the summary of a run in
which all 7 tools ran — the summary is not computed from per-tool
outcomes, and no `run`/`succeeded`/`failed` counts exist. -/
theorem best_effort_summary_counterexample :
    (multiToolForensic envNoTools).invocations.length = 3 ∧
    (multiToolForensic envNoTools).jsonOutput.map (fun r => r.summary.totalToolsUsed)
      = some 7 ∧
    (multiToolForensic envNoTools).jsonOutput.map (fun r => r.summary.analysisComplete)
      = some true ∧
    (multiToolForensic envNoTools).jsonOutput.map (fun r => r.summary)
      = (multiToolForensic envAllTools).jsonOutput.map (fun r => r.summary) ∧
    (7 : Nat) ≠ 3 := by decide

/-- C3 (amended): on any valid input the multi-tool phase reports
success unconditionally — exit code 0, `analysis_complete = true` —
regardless of how many tools ran or failed (so in particular whenever
at least one tool produced output), and the summary records only the
fixed declared tool count 7, with no succeeded/failed breakdown. -/
theorem best_effort_phase_always_succeeds (env : MultiEnv)
    (h : ¬(env.dumpArg = "" ∨ env.fileExists env.dumpArg = false)) :
    (multiToolForensic env).exitCode = 0 ∧
    (multiToolForensic env).jsonOutput.map (fun r => r.summary.analysisComplete)
      = some true ∧
    (multiToolForensic env).jsonOutput.map (fun r => r.summary.totalToolsUsed)
      = some 7 := by
  unfold multiToolForensic
  rw [if_neg h]
  exact ⟨rfl, rfl, rfl⟩

/-- Witness for the amended C3 at a concrete environment. -/
theorem best_effort_phase_always_succeeds_witness :
    (multiToolForensic envNoTools).exitCode = 0 ∧
    (multiToolForensic envNoTools).jsonOutput.map (fun r => r.summary.analysisComplete)
      = some true :=
  ⟨(best_effort_phase_always_succeeds envNoTools (by decide)).1,
   (best_effort_phase_always_succeeds envNoTools (by decide)).2.1⟩

/-! ## Claim C5 -/

/-- C5 counterexample: two aggregator runs over identical (empty) match
lists taken at different wall-clock start times produce documents that
still differ after erasing the `analysis_timestamp` field, because the
timestamp-derived analysis-directory and rules-file paths are embedded
in the document — wall-clock-dependent content beyond the `generatedAt`
timestamp. -/
theorem aggregation_clock_counterexample :
    eraseTimestamp (aggregateYara [] "d.raw" 1 5)
      ≠ eraseTimestamp (aggregateYara [] "d.raw" 2 5) ∧
    (aggregateYara [] "d.raw" 1 5).analysisDirectory
      ≠ (aggregateYara [] "d.raw" 2 5).analysisDirectory := by decide

/-- C5 (amended): the findings groupings, the per-rule counts, the
total count and the key findings of the aggregated document are a pure
function of the match lines — independent of the wall clock — and the
counts are stable under reordering of the lines; only the timestamp
and the timestamp-derived paths vary between runs. -/
theorem aggregation_deterministic (lines l₁ l₂ : List String) (df : String)
    (s₁ s₂ n₁ n₂ : Nat) (hperm : l₁.Perm l₂) :
    (aggregateYara lines df s₁ n₁).detailedMatches
      = (aggregateYara lines df s₂ n₂).detailedMatches ∧
    (aggregateYara lines df s₁ n₁).ruleSummary
      = (aggregateYara lines df s₂ n₂).ruleSummary ∧
    (aggregateYara lines df s₁ n₁).totalMatches
      = (aggregateYara lines df s₂ n₂).totalMatches ∧
    (aggregateYara lines df s₁ n₁).keyFindings
      = (aggregateYara lines df s₂ n₂).keyFindings ∧
    (aggregateYara l₁ df s₁ n₁).totalMatches
      = (aggregateYara l₂ df s₁ n₁).totalMatches ∧
    (∀ r, ruleCountOf l₁ r = ruleCountOf l₂ r) := by
  refine ⟨rfl, rfl, rfl, rfl, ?_, ?_⟩
  · show ((buildMatches l₁).map (fun g => g.2.length)).sum
      = ((buildMatches l₂).map (fun g => g.2.length)).sum
    rw [buildMatches_sum_lengths, buildMatches_sum_lengths,
      (hperm.filterMap parseMatchLine).length_eq]
  · intro r
    show groupLen (buildMatches l₁) r = groupLen (buildMatches l₂) r
    rw [buildMatches_groupLen, buildMatches_groupLen,
      (hperm.filterMap parseMatchLine).countP_eq]

/-- Witness for the amended C5 at concrete permuted line lists. -/
theorem aggregation_deterministic_witness :
    (aggregateYara ["A x", "B y"] "d.raw" 1 1).totalMatches
      = (aggregateYara ["B y", "A x"] "d.raw" 1 1).totalMatches :=
  (aggregation_deterministic ["A x", "B y"] ["A x", "B y"] ["B y", "A x"]
    "d.raw" 1 1 1 1 (by decide)).2.2.2.2.1

/-! ## Claim C6 -/

/-- C6: the aggregated document's tool summary is computed purely from
the counts present in the parsed output: the total match count equals
the sum of the per-rule counts of `rule_summary`, which in turn equals
the number of parseable match lines, and each per-rule count equals the
number of parsed lines carrying that rule name. -/
theorem total_matches_from_counts (lines : List String) (df : String) (s n : Nat) :
    (aggregateYara lines df s n).totalMatches
      = ((aggregateYara lines df s n).ruleSummary.map Prod.snd).sum ∧
    (aggregateYara lines df s n).totalMatches
      = (lines.filterMap parseMatchLine).length ∧
    (∀ r, ruleCountOf lines r
      = (lines.filterMap parseMatchLine).countP (fun p => p.1 == r)) := by
  refine ⟨?_, ?_, ?_⟩
  · show ((buildMatches lines).map (fun g => g.2.length)).sum
      = (((buildMatches lines).map (fun g => (g.1, g.2.length))).map Prod.snd).sum
    rw [List.map_map]
    rfl
  · exact buildMatches_sum_lengths lines
  · intro r
    exact buildMatches_groupLen lines r

/-! ## Claim C7 -/

/-- C7 counterexample: the aggregator has no (tool, rule) → category
mapping and no generic `other` category; a non-empty output line with
no second whitespace-separated field (here the single token `orphan`)
is dropped entirely — it appears in no grouping and contributes 0 to
the total — rather than being placed in an `other` category. -/
theorem other_category_counterexample :
    pyStrip ("orphan".data) ≠ [] ∧
    (aggregateYara ["orphan"] "d.raw" 0 0).detailedMatches = [] ∧
    (aggregateYara ["orphan"] "d.raw" 0 0).totalMatches = 0 := by decide

/-- C7 (amended): the aggregator groups matches by their leading
rule-name token with no category mapping; every output line that parses
into a rule name and match info is retained under that rule name (so
parseable matches are never dropped), while lines without a second
field are skipped rather than categorized as `other`. -/
theorem parsed_matches_retained (lines : List String) (line r info : String)
    (hmem : line ∈ lines) (hparse : parseMatchLine line = some (r, info))
    (df : String) (s n : Nat) :
    ∃ g, (r, g) ∈ (aggregateYara lines df s n).detailedMatches ∧ info ∈ g := by
  apply buildMatches_mem
  rw [List.mem_filterMap]
  exact ⟨line, hmem, hparse⟩

/-- Witness for the amended C7 at a concrete parseable match line. -/
theorem parsed_matches_retained_witness :
    ∃ g, ("CirrOS_Credentials", g)
        ∈ (aggregateYara ["CirrOS_Credentials dump.raw"] "d.raw" 0 0).detailedMatches ∧
      "dump.raw" ∈ g :=
  parsed_matches_retained ["CirrOS_Credentials dump.raw"] "CirrOS_Credentials dump.raw"
    "CirrOS_Credentials" "dump.raw" (by decide) (by decide) "d.raw" 0 0

/-! ## Lemmas about the orchestrator model -/

theorem advanceJob_id (ok : Bool) (doc : ResultDocument) (j : SpecJob) :
    (advanceJob ok doc j).id = j.id := by
  cases hp : j.phase <;> cases ok <;> simp [advanceJob, hp]

theorem cancelJob_id (j : SpecJob) : (cancelJob j).id = j.id := by
  cases hp : j.phase <;> simp [cancelJob, hp]

theorem startJob_id (j : SpecJob) : (startJob j).id = j.id := rfl

theorem advanceJob_pending (ok : Bool) (doc : ResultDocument) (j : SpecJob) :
    ((advanceJob ok doc j).phase = .pending ↔ j.phase = .pending) := by
  cases hp : j.phase <;> cases ok <;> simp [advanceJob, hp]

theorem cancelJob_not_pending (j : SpecJob) : (cancelJob j).phase ≠ .pending := by
  cases hp : j.phase <;> simp [cancelJob, hp]

theorem advanceJob_active (ok : Bool) (doc : ResultDocument) (j : SpecJob)
    (h : (advanceJob ok doc j).phase.isActive = true) : j.phase.isActive = true := by
  cases hp : j.phase <;> cases ok <;>
    simp [advanceJob, JobPhase.isActive, hp] at h ⊢

theorem cancelJob_active (j : SpecJob)
    (h : (cancelJob j).phase.isActive = true) : j.phase.isActive = true := by
  cases hp : j.phase <;> simp [cancelJob, JobPhase.isActive, hp] at h ⊢

theorem advanceJob_started (ok : Bool) (doc : ResultDocument) (j : SpecJob)
    (h : (advanceJob ok doc j).phase.started = true) : j.phase.started = true := by
  cases hp : j.phase <;> cases ok <;>
    simp [advanceJob, JobPhase.started, hp] at h ⊢

theorem cancelJob_started (j : SpecJob)
    (h : (cancelJob j).phase.started = true) : j.phase.started = true := by
  cases hp : j.phase <;> simp [cancelJob, JobPhase.started, hp] at h ⊢

theorem advanceJob_progress_mono (ok : Bool) (doc : ResultDocument) (j : SpecJob)
    (hwf : JobWf j) : j.progress ≤ (advanceJob ok doc j).progress := by
  cases hok : ok
  · cases hp : j.phase <;> simp [advanceJob, hp]
  · cases hp : j.phase <;> simp [advanceJob, hp]
    · have h := hwf.phaseProg 0 (by rw [hp]; rfl)
      omega
    · have h := hwf.phaseProg 25 (by rw [hp]; rfl)
      omega
    · have h := hwf.phaseProg 75 (by rw [hp]; rfl)
      omega

theorem cancelJob_progress (j : SpecJob) : (cancelJob j).progress = j.progress := by
  cases hp : j.phase <;> simp [cancelJob, hp]

theorem jobWf_fresh (n : Nat) : JobWf (freshJob n) := by
  refine ⟨?_, ?_, ?_, ?_, ?_⟩ <;> simp [freshJob, phaseProgress]

theorem jobWf_advance (ok : Bool) (doc : ResultDocument) (j : SpecJob)
    (hwf : JobWf j) : JobWf (advanceJob ok doc j) := by
  obtain ⟨h1, h2, h3, h4, h5⟩ := hwf
  cases hok : ok <;> cases hp : j.phase <;>
    refine ⟨?_, ?_, ?_, ?_, ?_⟩ <;>
    simp [advanceJob, hp, phaseProgress] at * <;>
    first
      | omega
      | assumption
      | (intro hcon; first | exact absurd (h4 hcon) (by simp [hp]) | exact h5 (by simp [hp]))
      | exact h5 (by simp [hp])
      | simp [hp]

theorem jobWf_cancel (j : SpecJob) (hwf : JobWf j) : JobWf (cancelJob j) := by
  obtain ⟨h1, h2, h3, h4, h5⟩ := hwf
  cases hp : j.phase <;>
    refine ⟨?_, ?_, ?_, ?_, ?_⟩ <;>
    simp [cancelJob, hp, phaseProgress] at * <;>
    first
      | omega
      | assumption
      | (intro hcon; exact absurd (h4 hcon) (by simp [hp]))
      | exact h5 (by simp [hp])
      | simp [hp]

theorem jobWf_start (j : SpecJob) (hp : j.phase = .pending) (hwf : JobWf j) :
    JobWf (startJob j) := by
  obtain ⟨h1, h2, h3, h4, h5⟩ := hwf
  have he : j.errorDetail = none := by
    cases he : j.errorDetail with
    | none => rfl
    | some e =>
      have hfail := h4 (by rw [he]; rfl)
      rw [hp] at hfail
      cases hfail
  have hr : j.result = none := h5 (by rw [hp]; simp)
  refine ⟨?_, ?_, ?_, ?_, ?_⟩
  · exact h1
  · intro p hpp
    have hpp' : (some 0 : Option Nat) = some p := hpp
    injection hpp' with h0
    have hj0 : j.progress = 0 := h2 0 (by rw [hp]; rfl)
    show j.progress = p
    omega
  · intro hcon
    simp [startJob] at hcon
  · intro hcon
    rw [show (startJob j).errorDetail = j.errorDetail from rfl, he] at hcon
    cases hcon
  · intro _
    exact hr

theorem map_pointwise_eq {α β : Type} (l : List α) (f g : α → β)
    (h : ∀ a ∈ l, f a = g a) : l.map f = l.map g := by
  induction l with
  | nil => rfl
  | cons a t ih =>
    simp only [List.map_cons]
    rw [h a (by simp), ih (fun x hx => h x (by simp [hx]))]

theorem mapUpdate_ids (jobs : List SpecJob) (id : Nat) (f : SpecJob → SpecJob)
    (hf : ∀ j, (f j).id = j.id) :
    (jobs.map (fun j => if j.id = id then f j else j)).map SpecJob.id
      = jobs.map SpecJob.id := by
  rw [List.map_map]
  apply map_pointwise_eq
  intro a _
  by_cases h : a.id = id <;> simp [h, hf]

theorem activeCount_map_le (jobs : List SpecJob) (g : SpecJob → SpecJob)
    (h : ∀ j, (g j).phase.isActive = true → j.phase.isActive = true) :
    activeCount (jobs.map g) ≤ activeCount jobs := by
  unfold activeCount
  rw [List.countP_map]
  apply List.countP_mono_left
  intro a _ ha
  exact h a ha

theorem find?_map_updater (jobs : List SpecJob) (f : SpecJob → SpecJob) (id : Nat)
    (hf : ∀ j, (f j).id = j.id) :
    (jobs.map f).find? (fun j => j.id == id)
      = (jobs.find? (fun j => j.id == id)).map f := by
  induction jobs with
  | nil => rfl
  | cons j t ih =>
    simp only [List.map_cons, List.find?]
    rw [hf j]
    cases hb : (j.id == id)
    · simpa [hb] using ih
    · simp [hb]

theorem map_update_no_match (l : List SpecJob) (id : Nat) (f : SpecJob → SpecJob)
    (h : ∀ x ∈ l, x.id ≠ id) :
    l.map (fun j => if j.id = id then f j else j) = l := by
  induction l with
  | nil => rfl
  | cons a t ih =>
    simp only [List.map_cons]
    rw [if_neg (h a (by simp)), ih (fun x hx => h x (by simp [hx]))]

theorem exists_split_of_mem (jobs : List SpecJob) (hnd : (jobs.map SpecJob.id).Nodup)
    (j0 : SpecJob) (hmem : j0 ∈ jobs) :
    ∃ l₁ l₂, jobs = l₁ ++ j0 :: l₂ ∧ (∀ x ∈ l₁, x.id ≠ j0.id) ∧ ∀ x ∈ l₂, x.id ≠ j0.id := by
  obtain ⟨l₁, l₂, rfl⟩ := List.append_of_mem hmem
  rw [List.map_append, List.map_cons] at hnd
  obtain ⟨hnd₁, hnd₂, hdisj⟩ := List.nodup_append.mp hnd
  refine ⟨l₁, l₂, rfl, ?_, ?_⟩
  · intro x hx hxid
    exact hdisj (List.mem_map_of_mem _ hx) (by rw [hxid]; exact List.mem_cons_self _ _)
  · intro x hx hxid
    exact (List.nodup_cons.mp hnd₂).1 (by rw [← hxid]; exact List.mem_map_of_mem _ hx)

theorem promote_split (l₁ l₂ : List SpecJob) (j0 : SpecJob)
    (h1 : ∀ x ∈ l₁, x.id ≠ j0.id) (h2 : ∀ x ∈ l₂, x.id ≠ j0.id) :
    promote (l₁ ++ j0 :: l₂) j0.id = l₁ ++ startJob j0 :: l₂ := by
  unfold promote
  rw [List.map_append, List.map_cons, if_pos rfl,
    map_update_no_match l₁ j0.id startJob h1, map_update_no_match l₂ j0.id startJob h2]

theorem inv_promote_head (N : Nat) (s : OrchState) (qid : Nat) (rest : List Nat)
    (hq : s.queue = qid :: rest) (hact : activeCount s.jobs < N) (hinv : Inv N s) :
    Inv N { jobs := promote s.jobs qid, queue := rest, nextId := s.nextId } := by
  obtain ⟨j0, hj0mem, hj0id⟩ :=
    hinv.queueJobs qid (by rw [hq]; exact List.mem_cons_self _ _)
  have hj0pending : j0.phase = .pending :=
    (hinv.pendingQueue j0 hj0mem).mpr (by rw [hj0id, hq]; exact List.mem_cons_self _ _)
  obtain ⟨l₁, l₂, hsplit, hne₁, hne₂⟩ :=
    exists_split_of_mem s.jobs hinv.idsNodup j0 hj0mem
  have hpr : promote s.jobs qid = l₁ ++ startJob j0 :: l₂ := by
    rw [hsplit, ← hj0id]
    exact promote_split l₁ l₂ j0 hne₁ hne₂
  have hqs := hinv.queueSorted
  rw [hq] at hqs
  have hqlt : ∀ q ∈ rest, qid < q := fun q hin => List.rel_of_pairwise_cons hqs hin
  have hqnotin : qid ∉ rest := fun hin => lt_irrefl qid (hqlt qid hin)
  have hids : (promote s.jobs qid).map SpecJob.id = s.jobs.map SpecJob.id :=
    mapUpdate_ids s.jobs qid startJob (fun _ => rfl)
  have hmemE : ∀ x, x ∈ l₁ ++ startJob j0 :: l₂ →
      x ∈ l₁ ∨ x = startJob j0 ∨ x ∈ l₂ := by
    intro x hx
    rcases List.mem_append.mp hx with h | h
    · exact Or.inl h
    · rcases List.mem_cons.mp h with h | h
      · exact Or.inr (Or.inl h)
      · exact Or.inr (Or.inr h)
  have hmemL : ∀ x, x ∈ l₁ ∨ x ∈ l₂ → x ∈ s.jobs := by
    intro x hx
    rw [hsplit]
    rcases hx with h | h
    · exact List.mem_append_left _ h
    · exact List.mem_append_right _ (List.mem_cons_of_mem _ h)
  have hACold : activeCount s.jobs = activeCount l₁ + activeCount l₂ := by
    rw [hsplit]
    unfold activeCount
    rw [List.countP_append, List.countP_cons]
    simp [hj0pending, JobPhase.isActive]
  refine ⟨?_, ?_, ?_, ?_, ?_, ?_, ?_, ?_⟩
  · -- wf
    intro x hx
    rw [hpr] at hx
    rcases hmemE x hx with h | h | h
    · exact hinv.wf x (hmemL x (Or.inl h))
    · rw [h]
      exact jobWf_start j0 hj0pending (hinv.wf j0 hj0mem)
    · exact hinv.wf x (hmemL x (Or.inr h))
  · -- bound
    show activeCount (promote s.jobs qid) ≤ N
    rw [hpr]
    have hnew : activeCount (l₁ ++ startJob j0 :: l₂)
        = activeCount l₁ + activeCount l₂ + 1 := by
      unfold activeCount
      rw [List.countP_append, List.countP_cons]
      have hsj : (startJob j0).phase.isActive = true := rfl
      simp [hsj]
      omega
    rw [hnew]
    omega
  · -- pendingQueue
    intro x hx
    rw [hpr] at hx
    rcases hmemE x hx with h | h | h
    · have hold := hinv.pendingQueue x (hmemL x (Or.inl h))
      rw [hq] at hold
      have hxid : x.id ≠ qid := hj0id ▸ hne₁ x h
      constructor
      · intro hp
        rcases List.mem_cons.mp (hold.mp hp) with hc | hc
        · exact absurd hc hxid
        · exact hc
      · intro hin
        exact hold.mpr (List.mem_cons_of_mem _ hin)
    · rw [h]
      constructor
      · intro hp
        cases hp
      · intro hin
        have : (startJob j0).id = qid := by rw [startJob_id, hj0id]
        rw [this] at hin
        exact absurd hin hqnotin
    · have hold := hinv.pendingQueue x (hmemL x (Or.inr h))
      rw [hq] at hold
      have hxid : x.id ≠ qid := hj0id ▸ hne₂ x h
      constructor
      · intro hp
        rcases List.mem_cons.mp (hold.mp hp) with hc | hc
        · exact absurd hc hxid
        · exact hc
      · intro hin
        exact hold.mpr (List.mem_cons_of_mem _ hin)
  · -- queueJobs
    intro q hqin
    obtain ⟨j, hj, hjid⟩ := hinv.queueJobs q (by rw [hq]; exact List.mem_cons_of_mem _ hqin)
    rw [hsplit] at hj
    rcases List.mem_append.mp hj with h | h
    · exact ⟨j, by rw [hpr]; exact List.mem_append_left _ h, hjid⟩
    · rcases List.mem_cons.mp h with h | h
      · refine ⟨startJob j0,
          by rw [hpr]; exact List.mem_append_right _ (List.mem_cons_self _ _), ?_⟩
        rw [startJob_id, ← h]
        exact hjid
      · exact ⟨j, by rw [hpr]; exact List.mem_append_right _ (List.mem_cons_of_mem _ h), hjid⟩
  · -- idsNodup
    rw [show (promote s.jobs qid : List SpecJob) = promote s.jobs qid from rfl, hids]
    exact hinv.idsNodup
  · -- idsLt
    intro x hx
    obtain ⟨j, hj, rfl⟩ := List.mem_map.mp hx
    have hlt := hinv.idsLt j hj
    by_cases hid : j.id = qid
    · simpa [hid, startJob_id] using hlt
    · simpa [hid] using hlt
  · -- queueSorted
    exact (List.pairwise_cons.mp hqs).2
  · -- fifo
    intro x hx hxs k hk hkpend
    rw [hpr] at hx hk
    have hkid : k ∈ l₁ ∨ k ∈ l₂ := by
      rcases hmemE k hk with h | h | h
      · exact Or.inl h
      · rw [h] at hkpend
        cases hkpend
      · exact Or.inr h
    have hkold : k ∈ s.jobs := hmemL k hkid
    have hkidne : k.id ≠ qid := by
      rcases hkid with h | h
      · exact hj0id ▸ hne₁ k h
      · exact hj0id ▸ hne₂ k h
    have hkin : k.id ∈ rest := by
      have hold := hinv.pendingQueue k hkold
      rw [hq] at hold
      rcases List.mem_cons.mp (hold.mp hkpend) with hc | hc
      · exact absurd hc hkidne
      · exact hc
    rcases hmemE x hx with h | h | h
    · exact hinv.fifo x (hmemL x (Or.inl h)) hxs k hkold hkpend
    · rw [h, startJob_id, hj0id]
      exact hqlt k.id hkin
    · exact hinv.fifo x (hmemL x (Or.inr h)) hxs k hkold hkpend

theorem inv_fillSlots (N fuel : Nat) (s : OrchState) (hinv : Inv N s) :
    Inv N (fillSlots N fuel s) := by
  induction fuel generalizing s with
  | zero => exact hinv
  | succ n ih =>
    show Inv N (fillSlots N (n + 1) s)
    rw [fillSlots]
    cases hq : s.queue with
    | nil => exact hinv
    | cons qid rest =>
      show Inv N (if activeCount s.jobs < N
        then fillSlots N n { jobs := promote s.jobs qid, queue := rest, nextId := s.nextId }
        else s)
      by_cases hact : activeCount s.jobs < N
      · rw [if_pos hact]
        exact ih _ (inv_promote_head N s qid rest hq hact hinv)
      · rw [if_neg hact]
        exact hinv

theorem inv_submit (N : Nat) (s : OrchState) (hinv : Inv N s) :
    Inv N { jobs := s.jobs ++ [freshJob s.nextId], queue := s.queue ++ [s.nextId],
            nextId := s.nextId + 1 } := by
  have hqlt : ∀ q ∈ s.queue, q < s.nextId := by
    intro q hq
    obtain ⟨j, hj, hjid⟩ := hinv.queueJobs q hq
    rw [← hjid]
    exact hinv.idsLt j hj
  refine ⟨?_, ?_, ?_, ?_, ?_, ?_, ?_, ?_⟩
  · intro x hx
    rcases List.mem_append.mp hx with h | h
    · exact hinv.wf x h
    · rw [List.mem_singleton.mp h]
      exact jobWf_fresh s.nextId
  · show activeCount (s.jobs ++ [freshJob s.nextId]) ≤ N
    unfold activeCount
    rw [List.countP_append]
    have h1 : List.countP (fun j => j.phase.isActive) [freshJob s.nextId] = 0 := rfl
    rw [h1]
    have hb := hinv.bound
    unfold activeCount at hb
    omega
  · intro x hx
    rcases List.mem_append.mp hx with h | h
    · have hold := hinv.pendingQueue x h
      have hxid : x.id ≠ s.nextId := Nat.ne_of_lt (hinv.idsLt x h)
      constructor
      · intro hp
        exact List.mem_append_left _ (hold.mp hp)
      · intro hin
        rcases List.mem_append.mp hin with hc | hc
        · exact hold.mpr hc
        · exact absurd (List.mem_singleton.mp hc) hxid
    · rw [List.mem_singleton.mp h]
      constructor
      · intro _
        exact List.mem_append_right _ (List.mem_singleton.mpr rfl)
      · intro _
        rfl
  · intro q hq
    rcases List.mem_append.mp hq with h | h
    · obtain ⟨j, hj, hjid⟩ := hinv.queueJobs q h
      exact ⟨j, List.mem_append_left _ hj, hjid⟩
    · refine ⟨freshJob s.nextId,
        List.mem_append_right _ (List.mem_singleton.mpr rfl), ?_⟩
      rw [List.mem_singleton.mp h]
      rfl
  · rw [List.map_append, List.nodup_append]
    refine ⟨hinv.idsNodup, by simp, ?_⟩
    intro a ha hb
    obtain ⟨j, hj, rfl⟩ := List.mem_map.mp ha
    have h1 : j.id = s.nextId := by simpa [freshJob] using hb
    have h2 := hinv.idsLt j hj
    omega
  · intro x hx
    rcases List.mem_append.mp hx with h | h
    · have := hinv.idsLt x h
      show x.id < s.nextId + 1
      omega
    · rw [List.mem_singleton.mp h]
      show s.nextId < s.nextId + 1
      omega
  · rw [List.pairwise_append]
    refine ⟨hinv.queueSorted, by simp, ?_⟩
    intro a ha b hb
    rw [List.mem_singleton.mp hb]
    exact hqlt a ha
  · intro x hx hxs k hk hkpend
    rcases List.mem_append.mp hx with hxm | hxm
    · rcases List.mem_append.mp hk with hkm | hkm
      · exact hinv.fifo x hxm hxs k hkm hkpend
      · rw [List.mem_singleton.mp hkm]
        show x.id < (freshJob s.nextId).id
        simpa [freshJob] using hinv.idsLt x hxm
    · rw [List.mem_singleton.mp hxm] at hxs
      simp [freshJob, JobPhase.started] at hxs

theorem inv_mapUpdate (N : Nat) (s : OrchState) (id : Nat) (f : SpecJob → SpecJob)
    (hfid : ∀ j, (f j).id = j.id)
    (hfwf : ∀ j, JobWf j → JobWf (f j))
    (hfact : ∀ j, (f j).phase.isActive = true → j.phase.isActive = true)
    (hfpend : ∀ j, ((f j).phase = .pending ↔ j.phase = .pending))
    (hfstart : ∀ j, (f j).phase.started = true → j.phase.started = true)
    (hinv : Inv N s) :
    Inv N { s with jobs := s.jobs.map (fun j => if j.id = id then f j else j) } := by
  set g : SpecJob → SpecJob := fun j => if j.id = id then f j else j with hg
  have hgid : ∀ j, (g j).id = j.id := by
    intro j
    by_cases h : j.id = id <;> simp [hg, h, hfid]
  have hgwf : ∀ j, JobWf j → JobWf (g j) := by
    intro j hj
    by_cases h : j.id = id <;> simp [hg, h]
    · exact hfwf j hj
    · exact hj
  have hgact : ∀ j, (g j).phase.isActive = true → j.phase.isActive = true := by
    intro j hj
    by_cases h : j.id = id
    · exact hfact j (by simpa [hg, h] using hj)
    · simpa [hg, h] using hj
  have hgpend : ∀ j, ((g j).phase = .pending ↔ j.phase = .pending) := by
    intro j
    by_cases h : j.id = id
    · simpa [hg, h] using hfpend j
    · simp [hg, h]
  have hgstart : ∀ j, (g j).phase.started = true → j.phase.started = true := by
    intro j hj
    by_cases h : j.id = id
    · exact hfstart j (by simpa [hg, h] using hj)
    · simpa [hg, h] using hj
  refine ⟨?_, ?_, ?_, ?_, ?_, ?_, ?_, ?_⟩
  · intro x hx
    obtain ⟨j, hj, rfl⟩ := List.mem_map.mp hx
    exact hgwf j (hinv.wf j hj)
  · show activeCount (s.jobs.map g) ≤ N
    exact le_trans (activeCount_map_le s.jobs g hgact) hinv.bound
  · intro x hx
    obtain ⟨j, hj, rfl⟩ := List.mem_map.mp hx
    rw [hgid j, hgpend j]
    exact hinv.pendingQueue j hj
  · intro q hq
    obtain ⟨j, hj, hjid⟩ := hinv.queueJobs q hq
    exact ⟨g j, List.mem_map_of_mem g hj, by rw [hgid j]; exact hjid⟩
  · show ((s.jobs.map g).map SpecJob.id).Nodup
    rw [hg, mapUpdate_ids s.jobs id f hfid]
    exact hinv.idsNodup
  · intro x hx
    obtain ⟨j, hj, rfl⟩ := List.mem_map.mp hx
    rw [hgid j]
    exact hinv.idsLt j hj
  · exact hinv.queueSorted
  · intro x hx hxs k hk hkpend
    obtain ⟨j, hj, rfl⟩ := List.mem_map.mp hx
    obtain ⟨j', hj', rfl⟩ := List.mem_map.mp hk
    rw [hgid j, hgid j']
    exact hinv.fifo j hj (hgstart j hxs) j' hj' ((hgpend j').mp hkpend)

theorem inv_cancelEvent (N : Nat) (s : OrchState) (id : Nat) (hinv : Inv N s) :
    Inv N { s with jobs := s.jobs.map (fun j => if j.id = id then cancelJob j else j),
                   queue := s.queue.filter (fun q => q != id) } := by
  set g : SpecJob → SpecJob := fun j => if j.id = id then cancelJob j else j with hg
  have hgid : ∀ j, (g j).id = j.id := by
    intro j
    by_cases h : j.id = id <;> simp [hg, h, cancelJob_id]
  refine ⟨?_, ?_, ?_, ?_, ?_, ?_, ?_, ?_⟩
  · intro x hx
    obtain ⟨j, hj, rfl⟩ := List.mem_map.mp hx
    by_cases h : j.id = id
    · simpa [hg, h] using jobWf_cancel j (hinv.wf j hj)
    · simpa [hg, h] using hinv.wf j hj
  · show activeCount (s.jobs.map g) ≤ N
    refine le_trans (activeCount_map_le s.jobs g ?_) hinv.bound
    intro j hj
    by_cases h : j.id = id
    · exact cancelJob_active j (by simpa [hg, h] using hj)
    · simpa [hg, h] using hj
  · intro x hx
    obtain ⟨j, hj, rfl⟩ := List.mem_map.mp hx
    by_cases h : j.id = id
    · have hnp : (g j).phase ≠ .pending := by
        simpa [hg, h] using cancelJob_not_pending j
      constructor
      · intro hp
        exact absurd hp hnp
      · intro hin
        have hmem := List.mem_filter.mp hin
        rw [hgid j, h] at hmem
        simp at hmem
    · have hold := hinv.pendingQueue j hj
      rw [show (g j) = j by simp [hg, h]]
      constructor
      · intro hp
        refine List.mem_filter.mpr ⟨hold.mp hp, ?_⟩
        simpa using h
      · intro hin
        exact hold.mpr (List.mem_filter.mp hin).1
  · intro q hq
    have hq' := (List.mem_filter.mp hq).1
    obtain ⟨j, hj, hjid⟩ := hinv.queueJobs q hq'
    exact ⟨g j, List.mem_map_of_mem g hj, by rw [hgid j]; exact hjid⟩
  · show ((s.jobs.map g).map SpecJob.id).Nodup
    rw [hg, mapUpdate_ids s.jobs id cancelJob cancelJob_id]
    exact hinv.idsNodup
  · intro x hx
    obtain ⟨j, hj, rfl⟩ := List.mem_map.mp hx
    rw [hgid j]
    exact hinv.idsLt j hj
  · exact List.Pairwise.filter _ hinv.queueSorted
  · intro x hx hxs k hk hkpend
    obtain ⟨j, hj, rfl⟩ := List.mem_map.mp hx
    obtain ⟨j', hj', rfl⟩ := List.mem_map.mp hk
    have hjs : j.phase.started = true := by
      by_cases h : j.id = id
      · exact cancelJob_started j (by simpa [hg, h] using hxs)
      · simpa [hg, h] using hxs
    have hj'p : j'.phase = .pending := by
      by_cases h : j'.id = id
      · exact absurd (by simpa [hg, h] using hkpend) (cancelJob_not_pending j')
      · simpa [hg, h] using hkpend
    rw [hgid j, hgid j']
    exact hinv.fifo j hj hjs j' hj' hj'p

theorem inv_applyEvent (N : Nat) (s : OrchState) (e : OrchEvent) (hinv : Inv N s) :
    Inv N (applyEvent N s e) := by
  cases e with
  | submit =>
    exact inv_fillSlots N _ _ (inv_submit N s hinv)
  | phaseDone id ok doc =>
    refine inv_fillSlots N _ _ (inv_mapUpdate N s id (advanceJob ok doc) ?_ ?_ ?_ ?_ ?_ hinv)
    · exact advanceJob_id ok doc
    · exact fun j => jobWf_advance ok doc j
    · exact fun j => advanceJob_active ok doc j
    · exact fun j => advanceJob_pending ok doc j
    · exact fun j => advanceJob_started ok doc j
  | cancel id =>
    exact inv_fillSlots N _ _ (inv_cancelEvent N s id hinv)

theorem inv_init (N : Nat) : Inv N initState := by
  refine ⟨?_, ?_, ?_, ?_, ?_, ?_, ?_, ?_⟩ <;> simp [initState, activeCount]

theorem inv_runFrom (N : Nat) (es : List OrchEvent) (s : OrchState) (hinv : Inv N s) :
    Inv N (runFrom N s es) := by
  induction es generalizing s with
  | nil => exact hinv
  | cons e t ih => exact ih _ (inv_applyEvent N s e hinv)

theorem inv_run (N : Nat) (es : List OrchEvent) : Inv N (runEvents N es) :=
  inv_runFrom N es initState (inv_init N)

theorem promote_lookup (jobs : List SpecJob) (qid id : Nat) (j : SpecJob)
    (h : jobs.find? (fun x => x.id == id) = some j) :
    (promote jobs qid).find? (fun x => x.id == id)
      = some (if j.id = qid then startJob j else j) := by
  have hf : ∀ x : SpecJob, ((fun y => if y.id = qid then startJob y else y) x).id = x.id := by
    intro x
    by_cases hx : x.id = qid <;> simp [hx, startJob_id]
  unfold promote
  rw [find?_map_updater jobs _ id hf, h]
  rfl

theorem fillSlots_lookup (N fuel : Nat) (s : OrchState) (id : Nat) (j : SpecJob)
    (h : lookupJob s id = some j) :
    ∃ j', lookupJob (fillSlots N fuel s) id = some j'
      ∧ j'.progress = j.progress := by
  induction fuel generalizing s j with
  | zero => exact ⟨j, h, rfl⟩
  | succ n ih =>
    rw [fillSlots]
    cases hq : s.queue with
    | nil => exact ⟨j, h, rfl⟩
    | cons qid rest =>
      show ∃ j', lookupJob
          (if activeCount s.jobs < N
            then fillSlots N n
              { jobs := promote s.jobs qid, queue := rest, nextId := s.nextId }
            else s) id = some j' ∧ j'.progress = j.progress
      by_cases hact : activeCount s.jobs < N
      · rw [if_pos hact]
        have hpl : lookupJob
            { jobs := promote s.jobs qid, queue := rest, nextId := s.nextId } id
            = some (if j.id = qid then startJob j else j) :=
          promote_lookup s.jobs qid id j h
        obtain ⟨j', hj', hp⟩ := ih _ _ hpl
        refine ⟨j', hj', ?_⟩
        rw [hp]
        by_cases hj : j.id = qid <;> simp [hj, startJob]
      · rw [if_neg hact]
        exact ⟨j, h, rfl⟩

theorem applyEvent_lookup_mono (N : Nat) (s : OrchState) (e : OrchEvent) (id : Nat)
    (j : SpecJob) (hinv : Inv N s) (h : lookupJob s id = some j) :
    ∃ j', lookupJob (applyEvent N s e) id = some j' ∧ j.progress ≤ j'.progress := by
  have hwf : JobWf j := hinv.wf j (List.mem_of_find?_eq_some h)
  cases e with
  | submit =>
    have happ : lookupJob
        { jobs := s.jobs ++ [freshJob s.nextId],
          queue := s.queue ++ [s.nextId], nextId := s.nextId + 1 } id = some j := by
      show (s.jobs ++ [freshJob s.nextId]).find? (fun x => x.id == id) = some j
      have h' : List.find? (fun x => x.id == id) s.jobs = some j := h
      rw [List.find?_append, h']
      rfl
    obtain ⟨j', hj', hp⟩ := fillSlots_lookup N (s.queue ++ [s.nextId]).length _ id j happ
    exact ⟨j', hj', by omega⟩
  | phaseDone pid ok doc =>
    have hf : ∀ x : SpecJob,
        ((fun y => if y.id = pid then advanceJob ok doc y else y) x).id = x.id := by
      intro x
      by_cases hx : x.id = pid <;> simp [hx, advanceJob_id]
    have hmap : lookupJob
        { s with jobs := s.jobs.map (fun x => if x.id = pid then advanceJob ok doc x else x) }
        id = some (if j.id = pid then advanceJob ok doc j else j) := by
      show (s.jobs.map (fun x => if x.id = pid then advanceJob ok doc x else x)).find?
          (fun x => x.id == id) = some (if j.id = pid then advanceJob ok doc j else j)
      have h' : List.find? (fun x => x.id == id) s.jobs = some j := h
      rw [find?_map_updater s.jobs _ id hf, h']
      rfl
    obtain ⟨j', hj', hp⟩ := fillSlots_lookup N s.queue.length _ id _ hmap
    refine ⟨j', hj', ?_⟩
    rw [hp]
    by_cases hj : j.id = pid
    · rw [if_pos hj]
      exact advanceJob_progress_mono ok doc j hwf
    · rw [if_neg hj]
  | cancel cid =>
    have hf : ∀ x : SpecJob,
        ((fun y => if y.id = cid then cancelJob y else y) x).id = x.id := by
      intro x
      by_cases hx : x.id = cid <;> simp [hx, cancelJob_id]
    have hmap : lookupJob
        { s with jobs := s.jobs.map (fun x => if x.id = cid then cancelJob x else x),
                 queue := s.queue.filter (fun q => q != cid) } id
        = some (if j.id = cid then cancelJob j else j) := by
      show (s.jobs.map (fun x => if x.id = cid then cancelJob x else x)).find?
          (fun x => x.id == id) = some (if j.id = cid then cancelJob j else j)
      have h' : List.find? (fun x => x.id == id) s.jobs = some j := h
      rw [find?_map_updater s.jobs _ id hf, h']
      rfl
    obtain ⟨j', hj', hp⟩ := fillSlots_lookup N (s.queue.filter (fun q => q != cid)).length
      _ id _ hmap
    refine ⟨j', hj', ?_⟩
    rw [hp]
    by_cases hj : j.id = cid
    · rw [if_pos hj, cancelJob_progress]
    · rw [if_neg hj]

theorem runFrom_lookup_mono (N : Nat) (es : List OrchEvent) (s : OrchState) (id : Nat)
    (j : SpecJob) (hinv : Inv N s) (h : lookupJob s id = some j) :
    ∃ j', lookupJob (runFrom N s es) id = some j' ∧ j.progress ≤ j'.progress := by
  induction es generalizing s j with
  | nil => exact ⟨j, h, le_refl _⟩
  | cons e t ih =>
    obtain ⟨j₁, h₁, hle₁⟩ := applyEvent_lookup_mono N s e id j hinv h
    obtain ⟨j₂, h₂, hle₂⟩ := ih (applyEvent N s e) j₁ (inv_applyEvent N s e hinv) h₁
    exact ⟨j₂, h₂, le_trans hle₁ hle₂⟩

/-! ## Claim C1 -/

/-- C1: in any observed orchestrator run, a job's progress percentage
is a natural number at most 100, and over any later extension of the
run the job is still present with a progress at least as large — the
progress is monotonically non-decreasing over the sequence of observed
states. -/
theorem progress_monotone_bounded (N : Nat) (es more : List OrchEvent) (id : Nat)
    (j : SpecJob) (h : lookupJob (runEvents N es) id = some j) :
    j.progress ≤ 100 ∧
    ∃ j', lookupJob (runEvents N (es ++ more)) id = some j' ∧
      j.progress ≤ j'.progress ∧ j'.progress ≤ 100 := by
  have hinv := inv_run N es
  have hwf : JobWf j := hinv.wf j (List.mem_of_find?_eq_some h)
  have hrun : runEvents N (es ++ more) = runFrom N (runEvents N es) more := by
    unfold runEvents runFrom
    rw [List.foldl_append]
  obtain ⟨j', hj', hle⟩ := runFrom_lookup_mono N more (runEvents N es) id j hinv h
  have hinv' := inv_runFrom N more (runEvents N es) hinv
  have hwf' : JobWf j' := hinv'.wf j' (List.mem_of_find?_eq_some hj')
  exact ⟨hwf.le100, j', by rw [hrun]; exact hj', hle, hwf'.le100⟩

/-- Witness for C1 at a concrete run. -/
theorem progress_monotone_bounded_witness :
    ∃ j, lookupJob (runEvents 2 [OrchEvent.submit]) 0 = some j ∧ j.progress ≤ 100 ∧
      ∃ j', lookupJob (runEvents 2 ([OrchEvent.submit] ++
        [OrchEvent.phaseDone 0 true sampleDoc])) 0 = some j' ∧
        j.progress ≤ j'.progress := by
  have h : lookupJob (runEvents 2 [OrchEvent.submit]) 0
      = some { id := 0, phase := .acquiring, progress := 0, result := none,
               errorDetail := none } := by decide
  obtain ⟨hb, j', hj', hle, _⟩ := progress_monotone_bounded 2 [OrchEvent.submit]
    [OrchEvent.phaseDone 0 true sampleDoc] 0 _ h
  exact ⟨_, h, hb, j', hj', hle⟩

/-! ## Claim C4 -/

/-- C4: querying status or result of an unknown id fails with NotFound;
querying the result of a known job that has not reached Completed fails
with NotReady; and once the job reaches Completed the same query
returns its stored ResultDocument. -/
theorem get_result_spec (N : Nat) (es : List OrchEvent) (id : Nat) :
    (lookupJob (runEvents N es) id = none →
      getStatus (runEvents N es) id = .error .notFound ∧
      getResult (runEvents N es) id = .error .notFound) ∧
    (∀ j, lookupJob (runEvents N es) id = some j → j.phase ≠ .completed →
      getResult (runEvents N es) id = .error .notReady) ∧
    (∀ j, lookupJob (runEvents N es) id = some j → j.phase = .completed →
      ∃ d, j.result = some d ∧ getResult (runEvents N es) id = .ok d) := by
  refine ⟨?_, ?_, ?_⟩
  · intro h
    refine ⟨?_, ?_⟩ <;> simp [getStatus, getResult, h]
  · intro j h hnc
    simp [getResult, h, hnc]
  · intro j h hc
    have hinv := inv_run N es
    have hwf := hinv.wf j (List.mem_of_find?_eq_some h)
    obtain ⟨d, hd⟩ := Option.isSome_iff_exists.mp (hwf.completedResult hc)
    refine ⟨d, hd, ?_⟩
    simp [getResult, h, hc, hd]

/-- Witness for C4: NotFound on an unknown id, NotReady while the job
is still active, and the stored document once Completed. -/
theorem get_result_spec_witness :
    getResult (runEvents 1 []) 5 = .error .notFound ∧
    getResult (runEvents 1 [OrchEvent.submit]) 0 = .error .notReady ∧
    getResult (runEvents 1 [OrchEvent.submit, OrchEvent.phaseDone 0 true sampleDoc,
      OrchEvent.phaseDone 0 true sampleDoc, OrchEvent.phaseDone 0 true sampleDoc]) 0
      = .ok sampleDoc := by
  refine ⟨?_, ?_, ?_⟩
  · exact ((get_result_spec 1 [] 5).1 (by decide)).2
  · exact (get_result_spec 1 [OrchEvent.submit] 0).2.1
      { id := 0, phase := .acquiring, progress := 0, result := none, errorDetail := none }
      (by decide) (by decide)
  · have hl : lookupJob (runEvents 1 [OrchEvent.submit,
        OrchEvent.phaseDone 0 true sampleDoc, OrchEvent.phaseDone 0 true sampleDoc,
        OrchEvent.phaseDone 0 true sampleDoc]) 0
        = some { id := 0, phase := .completed, progress := 100,
                 result := some sampleDoc, errorDetail := none } := by decide
    obtain ⟨d, hd, hres⟩ := (get_result_spec 1 [OrchEvent.submit,
      OrchEvent.phaseDone 0 true sampleDoc, OrchEvent.phaseDone 0 true sampleDoc,
      OrchEvent.phaseDone 0 true sampleDoc] 0).2.2 _ hl rfl
    have hds : d = sampleDoc := by
      have : (some sampleDoc : Option ResultDocument) = some d := hd
      injection this with h'
      exact h'.symm
    rw [hds] at hres
    exact hres

/-! ## Claim C8 -/

/-- C8: in every reachable orchestrator state, a Completed job has its
result set and progress equal to 100, the error detail is present only
in the Failed state, and the result is absent in every non-Completed
state. -/
theorem terminal_state_fields (N : Nat) (es : List OrchEvent) (j : SpecJob)
    (h : j ∈ (runEvents N es).jobs) :
    (j.phase = .completed → j.result.isSome = true ∧ j.progress = 100) ∧
    (j.errorDetail.isSome = true → j.phase = .failed) ∧
    (j.phase ≠ .completed → j.result = none) := by
  have hwf := (inv_run N es).wf j h
  refine ⟨?_, hwf.errFailed, hwf.resultNone⟩
  intro hc
  exact ⟨hwf.completedResult hc, hwf.phaseProg 100 (by rw [hc]; rfl)⟩

/-- Witness for C8 at concrete reachable jobs. -/
theorem terminal_state_fields_witness :
    ({ id := 0, phase := .acquiring, progress := 0, result := none,
       errorDetail := none } : SpecJob).result = none ∧
    ({ id := 0, phase := .completed, progress := 100, result := some sampleDoc,
       errorDetail := none } : SpecJob).result.isSome = true := by
  constructor
  · exact (terminal_state_fields 1 [OrchEvent.submit] _ (by decide)).2.2 (by decide)
  · exact ((terminal_state_fields 1 [OrchEvent.submit,
      OrchEvent.phaseDone 0 true sampleDoc, OrchEvent.phaseDone 0 true sampleDoc,
      OrchEvent.phaseDone 0 true sampleDoc] _ (by decide)).1 rfl).1

/-! ## Claim C9 -/

/-- C9: in every reachable orchestrator state — for any submission
burst — at most N jobs occupy the active Acquiring/Analyzing/Reporting
states, every Pending job remains observable in the FIFO queue, and
jobs are dequeued in FIFO order: every job that ever held a worker slot
was submitted (has a smaller id) before every job still pending. -/
theorem concurrency_bound_fifo (N : Nat) (es : List OrchEvent) :
    activeCount (runEvents N es).jobs ≤ N ∧
    (∀ j ∈ (runEvents N es).jobs, j.phase = .pending →
      j.id ∈ (runEvents N es).queue) ∧
    (∀ j ∈ (runEvents N es).jobs, j.phase.started = true →
      ∀ k ∈ (runEvents N es).jobs, k.phase = .pending → j.id < k.id) := by
  have hinv := inv_run N es
  exact ⟨hinv.bound, fun j hj hp => (hinv.pendingQueue j hj).mp hp, hinv.fifo⟩

/-- Witness for C9: a burst of 3 submissions with N = 2 keeps at most 2
jobs active, leaves job 2 pending and observable, and the started jobs
precede it. -/
theorem concurrency_bound_fifo_witness :
    activeCount (runEvents 2 [OrchEvent.submit, OrchEvent.submit,
      OrchEvent.submit]).jobs ≤ 2 ∧
    (2 : Nat) ∈ (runEvents 2 [OrchEvent.submit, OrchEvent.submit,
      OrchEvent.submit]).queue ∧
    (0 : Nat) < 2 := by
  have h := concurrency_bound_fifo 2 [OrchEvent.submit, OrchEvent.submit,
    OrchEvent.submit]
  refine ⟨h.1, ?_, ?_⟩
  · exact h.2.1
      { id := 2, phase := .pending, progress := 0, result := none, errorDetail := none }
      (by decide) rfl
  · exact h.2.2
      { id := 0, phase := .acquiring, progress := 0, result := none, errorDetail := none }
      (by decide) rfl
      { id := 2, phase := .pending, progress := 0, result := none, errorDetail := none }
      (by decide) rfl

end DevstackForensics
